import Mathlib

/-!
Verification of the L-system turtle interpreter
(`src/crates/l_system/src/interpreter.rs`, function `interpret`).

The Rust code works on `f32` values via `glam::Vec2` and `glam::Quat`.
We embed it with exact field arithmetic over an arbitrary `Field K`
(instantiated at `ℚ` for concrete evaluations): every float operation of
the source is a total arithmetic operation, so the real-number semantics
is the natural shallow embedding.  Two points of the translation:

* `Quat::from_rotation_z(θ).mul_vec3(v.extend(0.0)).truncate()` is the
  planar rotation of `v` by the angle `θ` (counter-clockwise), i.e.
  `(x cos θ - y sin θ, x sin θ + y cos θ)`.  The code always calls it at
  `θ = ±varied_angle.to_radians()`.  Since cosine and sine are not
  computable over an abstract field, the interpreter takes the two
  functions `cosd sind : K → K` as parameters; `cosd θ` stands for the
  cosine of the angle `θ` given in degrees (the composition of
  `to_radians` and `cos` in the source) and `sind θ` for its sine.
  Oddness of sine is not assumed: a rotation by `-θ` is expressed by
  evaluating `cosd` and `sind` at `-θ`, exactly as the source evaluates
  trigonometry at the negated angle.

* `scale_factor.powf(bracket_depth as f32)` is modelled as the integer
  power `scale_factor ^ bracket_depth` (zpow), `bracket_depth : ℤ`
  mirroring the `i32` counter of the source.
-/

namespace LSystem

/-- Planar vector, modelling `glam::Vec2` with exact coordinates. -/
structure Vec2 (K : Type) where
  x : K
  y : K
deriving DecidableEq, Repr

/-- Output of the interpreter: list of line segments (start, end).
Models `InterpreterOutput` from the source. -/
structure InterpreterOutput (K : Type) where
  positions : List (Vec2 K × Vec2 K)
deriving DecidableEq, Repr

/-- Caller-supplied data of one `interpret` call: the four numeric
parameters of the source signature, plus the two trigonometric functions
(cosine and sine of an angle in degrees) abstracted as fields. -/
structure Config (K : Type) where
  cosd : K → K
  sind : K → K
  rotation_angle : K
  line_length : K
  scale_factor : K
  angle_variation : K

/-- Mutable state of the interpretation loop: the branch stack of
(position, direction, saved scale) frames, the turtle position and
direction, `current_scale`, `bracket_depth`, and the output accumulated
so far (`output.positions` in the source). -/
structure TurtleState (K : Type) where
  stack : List (Vec2 K × Vec2 K × K)
  position : Vec2 K
  direction : Vec2 K
  current_scale : K
  bracket_depth : ℤ
  positions : List (Vec2 K × Vec2 K)
deriving DecidableEq, Repr

variable {K : Type} [Field K]

/-- Rotation of a planar vector by the angle `a` (in degrees),
counter-clockwise: the action of `Quat::from_rotation_z(a.to_radians())`
on `(v.x, v.y, 0)`, truncated back to the plane. -/
def rotZ (cfg : Config K) (a : K) (v : Vec2 K) : Vec2 K :=
  ⟨v.x * cfg.cosd a - v.y * cfg.sind a,
   v.x * cfg.sind a + v.y * cfg.cosd a⟩

/-- Step for symbol 'F' (source lines 32-40): scale by
`scale_factor ^ bracket_depth` and `current_scale`, emit a segment and
advance the position. -/
def stepF (cfg : Config K) (st : TurtleState K) : TurtleState K :=
  let depth_scale := cfg.scale_factor ^ st.bracket_depth
  let scaled_length := cfg.line_length * st.current_scale * depth_scale
  let new_position : Vec2 K :=
    ⟨st.position.x + st.direction.x * scaled_length,
     st.position.y + st.direction.y * scaled_length⟩
  { st with
    positions := st.positions ++ [(st.position, new_position)]
    position := new_position }

/-- Step for symbol '+' (source lines 41-50): rotate the direction by
the negated varied angle. -/
def stepPlus (cfg : Config K) (st : TurtleState K) : TurtleState K :=
  let variation_factor := cfg.angle_variation * (st.bracket_depth : K)
  let varied_angle := cfg.rotation_angle * (1 + variation_factor)
  { st with direction := rotZ cfg (-varied_angle) st.direction }

/-- Step for symbol '-' (source lines 51-60): rotate the direction by
the varied angle. -/
def stepMinus (cfg : Config K) (st : TurtleState K) : TurtleState K :=
  let variation_factor := cfg.angle_variation * (st.bracket_depth : K)
  let varied_angle := cfg.rotation_angle * (1 + variation_factor)
  { st with direction := rotZ cfg varied_angle st.direction }

/-- Step for symbol '[' (source lines 61-64): push the current frame and
increment the depth. -/
def stepPush (st : TurtleState K) : TurtleState K :=
  { st with
    stack := (st.position, st.direction, st.current_scale) :: st.stack
    bracket_depth := st.bracket_depth + 1 }

/-- Step for symbol ']' (source lines 65-72): pop and restore if the
stack is non-empty, otherwise do nothing. -/
def stepPop (st : TurtleState K) : TurtleState K :=
  match st.stack with
  | [] => st
  | (saved_position, saved_direction, saved_scale) :: rest =>
    { st with
      position := saved_position
      direction := saved_direction
      current_scale := saved_scale
      stack := rest
      bracket_depth := st.bracket_depth - 1 }

/-- Dispatch on one symbol (the `match ch` of source lines 31-74; the
wildcard arm leaves the state unchanged). -/
def step (cfg : Config K) (st : TurtleState K) (ch : Char) : TurtleState K :=
  if ch = 'F' then stepF cfg st
  else if ch = '+' then stepPlus cfg st
  else if ch = '-' then stepMinus cfg st
  else if ch = '[' then stepPush st
  else if ch = ']' then stepPop st
  else st

/-- Initial state of every call (source lines 22-28): empty stack,
position `Vec2::ZERO`, direction `Vec2::Y`, scale 1, depth 0, empty
output. -/
def initState : TurtleState K :=
  { stack := []
    position := ⟨0, 0⟩
    direction := ⟨0, 1⟩
    current_scale := 1
    bracket_depth := 0
    positions := [] }

/-- Run the interpretation loop from a given state over a list of
symbols (the `for ch in symbols.chars()` loop). -/
def runFrom (cfg : Config K) (st : TurtleState K) (symbols : List Char) :
    TurtleState K :=
  symbols.foldl (step cfg) st

/-- Run the interpretation loop from the initial state. -/
def runSymbols (cfg : Config K) (symbols : List Char) : TurtleState K :=
  runFrom cfg initState symbols

/-- The fixed alphabet (source line 17). -/
def validSymbols : List Char := ['F', '+', '-', '[', ']']

/-- Validation test of source line 18: true iff some character of the
input is outside the alphabet. -/
def hasInvalid (symbols : List Char) : Bool :=
  symbols.any fun ch => !(validSymbols.contains ch)

/-- The constant error message of source line 19. -/
def invalidSymbolMsg : String := "Invalid symbol in L-System string"

/-- The full `interpret` function (source lines 10-78): validate the
whole input, then run the loop and return the emitted segments.  The
trigonometric functions `cosd`, `sind` come first; the remaining
parameters keep the names and order of the source signature. -/
def interpret (cosd sind : K → K) (symbols : List Char)
    (rotation_angle line_length scale_factor angle_variation : K) :
    Except String (InterpreterOutput K) :=
  if hasInvalid symbols then
    .error invalidSymbolMsg
  else
    .ok ⟨(runSymbols ⟨cosd, sind, rotation_angle, line_length,
            scale_factor, angle_variation⟩ symbols).positions⟩

/-! Basic facts about the interpretation loop. -/

theorem runFrom_append (cfg : Config K) (st : TurtleState K) (u v : List Char) :
    runFrom cfg st (u ++ v) = runFrom cfg (runFrom cfg st u) v := by
  simp [runFrom, List.foldl_append]

theorem runFrom_cons (cfg : Config K) (st : TurtleState K) (c : Char)
    (w : List Char) :
    runFrom cfg st (c :: w) = runFrom cfg (step cfg st c) w := rfl

theorem runSymbols_append (cfg : Config K) (u v : List Char) :
    runSymbols cfg (u ++ v) = runFrom cfg (runSymbols cfg u) v := by
  simp [runSymbols, runFrom_append]

theorem stepPop_positions (st : TurtleState K) :
    (stepPop st).positions = st.positions := by
  cases h : st.stack with
  | nil => simp [stepPop, h]
  | cons f rest =>
    obtain ⟨p, d, s⟩ := f
    simp [stepPop, h]

/-- The segment that `stepF` emits from a state. -/
def fSegment (cfg : Config K) (st : TurtleState K) : Vec2 K × Vec2 K :=
  (st.position,
   ⟨st.position.x + st.direction.x *
      (cfg.line_length * st.current_scale * cfg.scale_factor ^ st.bracket_depth),
    st.position.y + st.direction.y *
      (cfg.line_length * st.current_scale * cfg.scale_factor ^ st.bracket_depth)⟩)

theorem step_positions (cfg : Config K) (st : TurtleState K) (ch : Char) :
    (step cfg st ch).positions =
      st.positions ++ (if ch = 'F' then [fSegment cfg st] else []) := by
  unfold step
  split_ifs with h1 h2 h3 h4 h5 <;>
    simp [stepF, stepPlus, stepMinus, stepPush, stepPop_positions, fSegment]

theorem runFrom_positions_length (cfg : Config K) (w : List Char) :
    ∀ st : TurtleState K,
      (runFrom cfg st w).positions.length =
        st.positions.length + w.count 'F' := by
  induction w with
  | nil => intro st; simp [runFrom]
  | cons c w ih =>
    intro st
    rw [runFrom_cons, ih, step_positions]
    by_cases hc : c = 'F' <;> simp [hc, List.count_cons] <;> omega

theorem runFrom_positions_extend (cfg : Config K) (w : List Char) :
    ∀ st : TurtleState K,
      ∃ t, (runFrom cfg st w).positions = st.positions ++ t := by
  induction w with
  | nil => intro st; exact ⟨[], by simp [runFrom]⟩
  | cons c w ih =>
    intro st
    obtain ⟨t, ht⟩ := ih (step cfg st c)
    rw [runFrom_cons] at *
    exact ⟨(if c = 'F' then [fSegment cfg st] else []) ++ t, by
      rw [ht, step_positions, List.append_assoc]⟩

/-! The scale invariant: `current_scale` and every saved scale on the
stack are the constant 1, so the per-frame saved scale never contributes
anything. -/

def ScalesOne (st : TurtleState K) : Prop :=
  st.current_scale = 1 ∧ ∀ f ∈ st.stack, f.2.2 = (1 : K)

theorem scalesOne_step (cfg : Config K) (st : TurtleState K) (ch : Char)
    (h : ScalesOne st) : ScalesOne (step cfg st ch) := by
  obtain ⟨h1, h2⟩ := h
  unfold step
  split_ifs with hF hP hM hPu hPo
  · exact ⟨h1, h2⟩
  · exact ⟨h1, h2⟩
  · exact ⟨h1, h2⟩
  · refine ⟨h1, ?_⟩
    intro f hf
    rcases List.mem_cons.mp hf with hf | hf
    · rw [hf]; exact h1
    · exact h2 f hf
  · cases hs : st.stack with
    | nil => simpa [stepPop, hs] using ⟨h1, h2⟩
    | cons f rest =>
      obtain ⟨p, d, s⟩ := f
      refine ⟨?_, ?_⟩
      · simpa [stepPop, hs] using h2 (p, d, s) (hs ▸ List.mem_cons_self _ _)
      · intro g hg
        simp only [stepPop, hs] at hg
        exact h2 g (hs ▸ List.mem_cons_of_mem _ hg)
  · exact ⟨h1, h2⟩

theorem scalesOne_runFrom (cfg : Config K) (w : List Char) :
    ∀ st : TurtleState K, ScalesOne st → ScalesOne (runFrom cfg st w) := by
  induction w with
  | nil => intro st h; simpa [runFrom] using h
  | cons c w ih =>
    intro st h
    rw [runFrom_cons]
    exact ih _ (scalesOne_step cfg st c h)

theorem scalesOne_initState : ScalesOne (initState : TurtleState K) := by
  constructor
  · rfl
  · intro f hf; simp [initState] at hf

theorem scalesOne_runSymbols (cfg : Config K) (w : List Char) :
    ScalesOne (runSymbols cfg w) :=
  scalesOne_runFrom cfg w initState scalesOne_initState

/-! The depth invariant: the branch stack is exactly balanced with the
bracket depth, for every input, matched or not. -/

def DepthBalanced (st : TurtleState K) : Prop :=
  (st.stack.length : ℤ) = st.bracket_depth

theorem depthBalanced_step (cfg : Config K) (st : TurtleState K) (ch : Char)
    (h : DepthBalanced st) : DepthBalanced (step cfg st ch) := by
  unfold DepthBalanced at *
  unfold step
  split_ifs with hF hP hM hPu hPo
  · simpa [stepF] using h
  · simpa [stepPlus] using h
  · simpa [stepMinus] using h
  · simp [stepPush]; omega
  · cases hs : st.stack with
    | nil => simpa [stepPop, hs] using h
    | cons f rest =>
      obtain ⟨p, d, s⟩ := f
      rw [hs] at h
      simp [stepPop, hs] at h ⊢
      omega
  · exact h

theorem depthBalanced_runFrom (cfg : Config K) (w : List Char) :
    ∀ st : TurtleState K, DepthBalanced st → DepthBalanced (runFrom cfg st w) := by
  induction w with
  | nil => intro st h; simpa [runFrom] using h
  | cons c w ih =>
    intro st h
    rw [runFrom_cons]
    exact ih _ (depthBalanced_step cfg st c h)

theorem depthBalanced_runSymbols (cfg : Config K) (w : List Char) :
    DepthBalanced (runSymbols cfg w) :=
  depthBalanced_runFrom cfg w initState (by simp [DepthBalanced, initState])

/-! The unit-direction invariant: assuming the trigonometric pair
satisfies the Pythagorean identity, rotation preserves the squared norm,
so the direction (and every saved direction) stays unit length. -/

/-- Squared euclidean norm of a planar vector. -/
def normSq (v : Vec2 K) : K := v.x ^ 2 + v.y ^ 2

theorem rotZ_normSq (cfg : Config K)
    (hp : ∀ θ : K, cfg.cosd θ ^ 2 + cfg.sind θ ^ 2 = 1) (a : K) (v : Vec2 K) :
    normSq (rotZ cfg a v) = normSq v := by
  simp only [normSq, rotZ]
  linear_combination (v.x ^ 2 + v.y ^ 2 - 1) * hp a + hp a

def UnitDirections (st : TurtleState K) : Prop :=
  normSq st.direction = 1 ∧ ∀ f ∈ st.stack, normSq f.2.1 = (1 : K)

theorem unitDirections_step (cfg : Config K)
    (hp : ∀ θ : K, cfg.cosd θ ^ 2 + cfg.sind θ ^ 2 = 1)
    (st : TurtleState K) (ch : Char)
    (h : UnitDirections st) : UnitDirections (step cfg st ch) := by
  obtain ⟨h1, h2⟩ := h
  unfold step
  split_ifs with hF hP hM hPu hPo
  · exact ⟨h1, h2⟩
  · exact ⟨by simpa [stepPlus, rotZ_normSq cfg hp] using h1, h2⟩
  · exact ⟨by simpa [stepMinus, rotZ_normSq cfg hp] using h1, h2⟩
  · refine ⟨h1, ?_⟩
    intro f hf
    rcases List.mem_cons.mp hf with hf | hf
    · rw [hf]; exact h1
    · exact h2 f hf
  · cases hs : st.stack with
    | nil => simpa [stepPop, hs] using ⟨h1, h2⟩
    | cons f rest =>
      obtain ⟨p, d, s⟩ := f
      refine ⟨?_, ?_⟩
      · simpa [stepPop, hs] using h2 (p, d, s) (hs ▸ List.mem_cons_self _ _)
      · intro g hg
        simp only [stepPop, hs] at hg
        exact h2 g (hs ▸ List.mem_cons_of_mem _ hg)
  · exact ⟨h1, h2⟩

theorem unitDirections_runFrom (cfg : Config K)
    (hp : ∀ θ : K, cfg.cosd θ ^ 2 + cfg.sind θ ^ 2 = 1) (w : List Char) :
    ∀ st : TurtleState K, UnitDirections st → UnitDirections (runFrom cfg st w) := by
  induction w with
  | nil => intro st h; simpa [runFrom] using h
  | cons c w ih =>
    intro st h
    rw [runFrom_cons]
    exact ih _ (unitDirections_step cfg hp st c h)

theorem unitDirections_initState : UnitDirections (initState : TurtleState K) := by
  constructor
  · simp [normSq, initState]
  · intro f hf; simp [initState] at hf

/-! Runs over replicated brackets, used for the depth-exponentiation
law. -/

theorem step_open (cfg : Config K) (st : TurtleState K) :
    step cfg st '[' = stepPush st := rfl

theorem step_close (cfg : Config K) (st : TurtleState K) :
    step cfg st ']' = stepPop st := rfl

theorem runFrom_replicate_open (cfg : Config K) (d : ℕ) :
    ∀ st : TurtleState K,
      runFrom cfg st (List.replicate d '[') =
        { st with
          stack :=
            List.replicate d (st.position, st.direction, st.current_scale)
              ++ st.stack
          bracket_depth := st.bracket_depth + d } := by
  induction d with
  | zero => intro st; simp [runFrom]
  | succ d ih =>
    intro st
    rw [List.replicate_succ, runFrom_cons, step_open, ih]
    simp [stepPush, TurtleState.mk.injEq, List.replicate_succ',
      List.append_assoc]
    omega

theorem runFrom_replicate_close_positions (cfg : Config K) (d : ℕ) :
    ∀ st : TurtleState K,
      (runFrom cfg st (List.replicate d ']')).positions = st.positions := by
  induction d with
  | zero => intro st; simp [runFrom]
  | succ d ih =>
    intro st
    rw [List.replicate_succ, runFrom_cons, step_close, ih, stepPop_positions]

/-! Characterization of the validation test. -/

theorem hasInvalid_eq_false_iff (w : List Char) :
    hasInvalid w = false ↔ ∀ c ∈ w, c ∈ validSymbols := by
  simp [hasInvalid, List.any_eq_true, List.contains, List.elem_iff]

theorem hasInvalid_eq_true_iff (w : List Char) :
    hasInvalid w = true ↔ ∃ c ∈ w, c ∉ validSymbols := by
  simp [hasInvalid, List.any_eq_true, List.contains, List.elem_iff]

/-! Claim theorems. -/

/-- C8: the empty string is a valid input: for all parameter values,
interpret of the empty string succeeds (it does not fail the symbol
validation) and returns an empty segment sequence. -/
theorem claim8_empty_input (cosd sind : K → K)
    (rotation_angle line_length scale_factor angle_variation : K) :
    interpret cosd sind [] rotation_angle line_length scale_factor
      angle_variation = .ok ⟨[]⟩ := rfl

/-- C9: interpret is deterministic: it is a pure function of its
arguments in this embedding, so two calls with identical arguments are
the same value; no state survives a call and no hidden source of
nondeterminism exists. -/
theorem claim9_deterministic (cosd sind : K → K) (symbols : List Char)
    (rotation_angle line_length scale_factor angle_variation : K) :
    interpret cosd sind symbols rotation_angle line_length scale_factor
        angle_variation
      = interpret cosd sind symbols rotation_angle line_length scale_factor
        angle_variation := rfl

/-- C10: after processing any symbol string (hence after each symbol of
any input, with or without matched brackets), the length of the branch
stack equals the bracket depth, and consequently the bracket depth is
never negative. -/
theorem claim10_stack_depth_balance (cfg : Config K) (w : List Char) :
    ((runSymbols cfg w).stack.length : ℤ) = (runSymbols cfg w).bracket_depth ∧
      0 ≤ (runSymbols cfg w).bracket_depth := by
  have h := depthBalanced_runSymbols cfg w
  exact ⟨h, by rw [← h]; exact Int.natCast_nonneg _⟩

/-- C5: processing a turn symbol after any prefix replaces the heading
by the exact rotation of the current heading by the varied angle
rotation_angle * (1 + angle_variation * depth): the plus symbol rotates
by the negated varied angle and the minus symbol by the varied angle
itself (same magnitude, opposite signs), with all other state components
unchanged. -/
theorem claim5_turn_rotation (cfg : Config K) (w : List Char) :
    runSymbols cfg (w ++ ['+']) =
      { runSymbols cfg w with
        direction := rotZ cfg
          (-(cfg.rotation_angle *
              (1 + cfg.angle_variation *
                ((runSymbols cfg w).bracket_depth : K))))
          (runSymbols cfg w).direction } ∧
    runSymbols cfg (w ++ ['-']) =
      { runSymbols cfg w with
        direction := rotZ cfg
          (cfg.rotation_angle *
              (1 + cfg.angle_variation *
                ((runSymbols cfg w).bracket_depth : K)))
          (runSymbols cfg w).direction } := by
  constructor <;> (rw [runSymbols_append]; rfl)

/-- C6: whenever the trigonometric pair satisfies the Pythagorean
identity, the heading after processing any symbol string has unit
squared norm; since every intermediate state of a call is the state
after some prefix of the input, the heading is unit length at every
point of every interpretation call. -/
theorem claim6_unit_heading (cfg : Config K)
    (hp : ∀ θ : K, cfg.cosd θ ^ 2 + cfg.sind θ ^ 2 = 1) :
    normSq (initState : TurtleState K).direction = 1 ∧
    (∀ (a : K) (v : Vec2 K), normSq (rotZ cfg a v) = normSq v) ∧
    ∀ w : List Char, normSq (runSymbols cfg w).direction = 1 :=
  ⟨unitDirections_initState.1, rotZ_normSq cfg hp, fun w =>
    (unitDirections_runFrom cfg hp w initState unitDirections_initState).1⟩

/-- C6 witness: instantiation at the rational point (3/5, 4/5) of the
unit circle, on an input exercising turns, branches and draws. -/
theorem claim6_unit_heading_witness :
    normSq (runSymbols
        (⟨fun _ => 3/5, fun _ => 4/5, 30, 2, 1/2, 1/4⟩ : Config ℚ)
        ['+', '[', 'F', '-', ']', 'F']).direction = 1 :=
  (claim6_unit_heading
      (⟨fun _ => 3/5, fun _ => 4/5, 30, 2, 1/2, 1/4⟩ : Config ℚ)
      (fun _ => by norm_num)).2.2 ['+', '[', 'F', '-', ']', 'F']

/-- C2 counterexample: the error value does not carry the offending
character: two inputs whose unique invalid characters differ yield the
same error value, the constant message, and that message does not
contain the offending character. -/
theorem claim2_invalid_symbol_counterexample :
    interpret (K := ℚ) id id ['X'] 0 0 0 0 = .error invalidSymbolMsg ∧
    interpret (K := ℚ) id id ['Y'] 0 0 0 0
      = interpret (K := ℚ) id id ['X'] 0 0 0 0 ∧
    'X' ∉ invalidSymbolMsg.toList := by
  exact ⟨rfl, rfl, by decide⟩

/-- C2 amended: for every input containing a character outside the
alphabet, interpret fails with the single constant error message (which
does not carry the offending character) and produces no output: the
validation examines the whole input before the loop starts, so a failure
never yields partial output. -/
theorem claim2_invalid_symbol_case (cosd sind : K → K) (w : List Char)
    (rotation_angle line_length scale_factor angle_variation : K)
    (h : ∃ c ∈ w, c ∉ validSymbols) :
    interpret cosd sind w rotation_angle line_length scale_factor
      angle_variation = .error invalidSymbolMsg := by
  have ht : hasInvalid w = true := (hasInvalid_eq_true_iff w).mpr h
  simp [interpret, ht]

/-- C2 witness: a concrete invalid input fails with the constant
message. -/
theorem claim2_invalid_symbol_case_witness :
    interpret (K := ℚ) id id ['F', 'G'] 1 1 1 1 = .error invalidSymbolMsg :=
  claim2_invalid_symbol_case id id ['F', 'G'] 1 1 1 1
    ⟨'G', by decide, by decide⟩

/-- C3: for every valid input, interpret succeeds with the accumulated
segment list, the number of emitted segments equals the number of
occurrences of 'F' in the input, and the output is emitted in traversal
order: the segments produced by any prefix of the input form a prefix of
the full output. -/
theorem claim3_segment_count_order (cfg : Config K) (w : List Char)
    (h : ∀ c ∈ w, c ∈ validSymbols) :
    interpret cfg.cosd cfg.sind w cfg.rotation_angle cfg.line_length
        cfg.scale_factor cfg.angle_variation
      = .ok ⟨(runSymbols cfg w).positions⟩ ∧
    (runSymbols cfg w).positions.length = w.count 'F' ∧
    ∀ u v, w = u ++ v →
      ∃ t, (runSymbols cfg w).positions = (runSymbols cfg u).positions ++ t := by
  obtain ⟨cosd, sind, ra, ll, sf, av⟩ := cfg
  have hv : hasInvalid w = false := (hasInvalid_eq_false_iff w).mpr h
  refine ⟨?_, ?_, ?_⟩
  · simp [interpret, hv]
  · have := runFrom_positions_length
      (⟨cosd, sind, ra, ll, sf, av⟩ : Config K) w initState
    simpa [runSymbols, initState] using this
  · rintro u v rfl
    rw [runSymbols_append]
    exact runFrom_positions_extend _ v _

/-- C3 witness: a concrete valid input with three draws. -/
theorem claim3_segment_count_order_witness :
    (runSymbols (⟨id, id, 90, 1, 1, 0⟩ : Config ℚ)
        ['F', '[', 'F', ']', 'F']).positions.length = 3 :=
  ((claim3_segment_count_order (⟨id, id, 90, 1, 1, 0⟩ : Config ℚ)
      ['F', '[', 'F', ']', 'F'] (by decide)).2.1).trans (by decide)

/-- C4: a closing bracket on an empty branch stack is a no-op: for every
valid string w that leaves the branch stack empty, appending a trailing
closing bracket changes nothing: the entire final state (position,
heading, scale, depth, output) is the same, the call still succeeds, and
its result is identical. -/
theorem claim4_underflow_noop (cfg : Config K) (w : List Char)
    (hv : ∀ c ∈ w, c ∈ validSymbols)
    (hs : (runSymbols cfg w).stack = []) :
    runSymbols cfg (w ++ [']']) = runSymbols cfg w ∧
    interpret cfg.cosd cfg.sind (w ++ [']']) cfg.rotation_angle
        cfg.line_length cfg.scale_factor cfg.angle_variation
      = interpret cfg.cosd cfg.sind w cfg.rotation_angle cfg.line_length
        cfg.scale_factor cfg.angle_variation ∧
    interpret cfg.cosd cfg.sind w cfg.rotation_angle cfg.line_length
        cfg.scale_factor cfg.angle_variation
      = .ok ⟨(runSymbols cfg w).positions⟩ := by
  obtain ⟨cosd, sind, ra, ll, sf, av⟩ := cfg
  have hrun : runSymbols (⟨cosd, sind, ra, ll, sf, av⟩ : Config K)
      (w ++ [']']) = runSymbols ⟨cosd, sind, ra, ll, sf, av⟩ w := by
    rw [runSymbols_append]
    show stepPop _ = _
    simp [stepPop, hs]
  have hv1 : hasInvalid w = false := (hasInvalid_eq_false_iff w).mpr hv
  have hv2 : hasInvalid (w ++ [']']) = false := by
    rw [hasInvalid_eq_false_iff]
    intro c hc
    rcases List.mem_append.mp hc with hc | hc
    · exact hv c hc
    · simp at hc
      rw [hc]; decide
  exact ⟨hrun, by simp [interpret, hv1, hv2, hrun], by simp [interpret, hv1]⟩

/-- C4 witness: a concrete balanced string followed by an unmatched
closing bracket. -/
theorem claim4_underflow_noop_witness :
    runSymbols (⟨id, id, 45, 1, 1, 0⟩ : Config ℚ) (['[', 'F', ']'] ++ [']'])
      = runSymbols (⟨id, id, 45, 1, 1, 0⟩ : Config ℚ) ['[', 'F', ']'] :=
  (claim4_underflow_noop (⟨id, id, 45, 1, 1, 0⟩ : Config ℚ) ['[', 'F', ']']
    (by decide) (by rfl)).1

/-- C7: interpreting the string with one bracketed draw and then a bare
draw, with rotation 0, length 1, scale factor 1 and angle variation 0,
emits exactly two segments; the second starts at the pre-bracket origin
(0, 0) — which differs from (0, 1) — because the closing bracket
restores position, heading and scale in full from the saved frame. -/
theorem claim7_branch_restore (cosd sind : K → K) :
    interpret cosd sind ['[', 'F', ']', 'F'] 0 1 1 0
      = .ok ⟨[(⟨0, 0⟩, ⟨0, 1⟩), (⟨0, 0⟩, ⟨0, 1⟩)]⟩ ∧
    (⟨0, 0⟩ : Vec2 K) ≠ ⟨0, 1⟩ := by
  constructor
  · have hv : hasInvalid ['[', 'F', ']', 'F'] = false := by decide
    simp [interpret, hv, runSymbols, runFrom, step, stepF, stepPush,
      stepPop, initState]
  · simp [Vec2.mk.injEq]

/-- The symbol string consisting of d nested bracket wrappers around a
single draw symbol. -/
def nest (d : ℕ) : List Char :=
  List.replicate d '[' ++ 'F' :: List.replicate d ']'

/-- C1: the depth-exponentiation law.  First conjunct: interpreting d
nested bracket wrappers around a single 'F' emits one segment of length
line_length * scale_factor ^ d (the segment goes straight up from the
origin).  Second conjunct: after any prefix whatsoever, a draw symbol
emits a segment whose displacement is the heading times
line_length * scale_factor ^ depth — a pure function of the current
bracket depth, independent of how many sibling branches were visited
before, because the saved per-frame scale is always the constant 1. -/
theorem claim1_depth_exponentiation (cfg : Config K) :
    (∀ d : ℕ,
      interpret cfg.cosd cfg.sind (nest d) cfg.rotation_angle
          cfg.line_length cfg.scale_factor cfg.angle_variation
        = .ok ⟨[(⟨0, 0⟩, ⟨0, cfg.line_length * cfg.scale_factor ^ d⟩)]⟩) ∧
    (∀ w : List Char,
      (runSymbols cfg (w ++ ['F'])).positions =
        (runSymbols cfg w).positions ++
          [((runSymbols cfg w).position,
            ⟨(runSymbols cfg w).position.x +
               (runSymbols cfg w).direction.x *
                 (cfg.line_length *
                   cfg.scale_factor ^ (runSymbols cfg w).bracket_depth),
             (runSymbols cfg w).position.y +
               (runSymbols cfg w).direction.y *
                 (cfg.line_length *
                   cfg.scale_factor ^ (runSymbols cfg w).bracket_depth)⟩)]) := by
  obtain ⟨cosd, sind, ra, ll, sf, av⟩ := cfg
  constructor
  · intro d
    have hv : hasInvalid (nest d) = false := by
      rw [hasInvalid_eq_false_iff]
      intro c hc
      simp [nest, List.mem_replicate] at hc
      rcases hc with ⟨_, rfl⟩ | rfl | ⟨_, rfl⟩ <;> decide
    have hrun : (runSymbols (⟨cosd, sind, ra, ll, sf, av⟩ : Config K)
        (nest d)).positions = [(⟨0, 0⟩, ⟨0, ll * sf ^ d⟩)] := by
      unfold nest runSymbols
      rw [runFrom_append, runFrom_replicate_open, runFrom_cons]
      rw [show ∀ st : TurtleState K,
            step (⟨cosd, sind, ra, ll, sf, av⟩ : Config K) st 'F'
              = stepF ⟨cosd, sind, ra, ll, sf, av⟩ st from fun _ => rfl]
      rw [runFrom_replicate_close_positions]
      simp [stepF, initState, zpow_natCast]
    simp [interpret, hv, hrun]
  · intro w
    rw [runSymbols_append]
    show (stepF _ _).positions = _
    have hsc := (scalesOne_runSymbols
      (⟨cosd, sind, ra, ll, sf, av⟩ : Config K) w).1
    simp [stepF, hsc]

end LSystem
